import Mathlib

/-!
# Verification of the `unrasterize` pixel-selection core

A shallow embedding of `unrasterize/classes.py`: the raster band data model,
the sorting helper `_sort_pixels`, the value-conservation step
`_reassign_pixel_values`, the coordinate helper `_get_coordinates`, the
top-K selector (`NaiveUnrasterizer`), the greedy exclusion-masked selector
(`Unrasterizer`), and the tiled coordinator (`WindowedUnrasterizer`).

Band values are modelled over `ℚ` (the Python code uses numpy float32;
all value-level theorems below either avoid division by zero or state
hypotheses keeping denominators nonzero, so exact arithmetic matches the
intent of the floating-point code up to rounding).  Machine indexes are
`ℕ`; Python's clamping `max(x - w, 0)` is `ℕ` truncated subtraction.
-/

namespace Unrasterize

/-- A raster band: a 2-D array of shape `(H, W)` of numeric cell values,
indexed row-major as `val r c`.  Mirrors the `band` ndarray obtained from
`raster_data.read(...)[0]`. -/
structure Band where
  H : ℕ
  W : ℕ
  val : ℕ → ℕ → ℚ

/-- Build a band from an explicit row-major list of rows (used for concrete
test inputs).  Out-of-range reads default to `0`, matching the fact that the
Python code never indexes outside the array. -/
def Band.ofList (rows : List (List ℚ)) : Band where
  H := rows.length
  W := (rows.headD []).length
  val := fun r c => (rows.getD r []).getD c 0

/-- All cell indexes `(r, c)` of a band in row-major order — the order in
which `np.ravel` flattens the array. -/
def allCells (b : Band) : List (ℕ × ℕ) :=
  List.product (List.range b.H) (List.range b.W)

/-- The order used to model `np.argsort(np.ravel(band))[::-1]`: cells
ordered by descending value.  numpy's default quicksort is deterministic
for a fixed input but its tie order is incidental; we model the tie-break
by a stable sort of the row-major cell list, which is one fixed,
reproducible choice (the properties proved below do not depend on which
tie-break is used). -/
def pixelDescLE (b : Band) (p q : ℕ × ℕ) : Prop :=
  b.val q.1 q.2 ≤ b.val p.1 p.2

instance (b : Band) : DecidableRel (pixelDescLE b) :=
  fun p q => inferInstanceAs (Decidable (_ ≤ _))

instance (b : Band) : IsTotal (ℕ × ℕ) (pixelDescLE b) :=
  ⟨fun p q => le_total (b.val q.1 q.2) (b.val p.1 p.2)⟩

instance (b : Band) : IsTrans (ℕ × ℕ) (pixelDescLE b) :=
  ⟨fun _ _ _ hxy hyz => le_trans hyz hxy⟩

/-- `BaseUnrasterizer._sort_pixels`: the row, column indexes of the band in
descending order by value. -/
def sortPixels (b : Band) : List (ℕ × ℕ) :=
  List.insertionSort (pixelDescLE b) (allCells b)

/-- Sum of the strictly positive entries of a list of values: models the
numpy idiom `np.sum(x[x > 0.0])`. -/
def sumPositives (l : List ℚ) : ℚ :=
  (l.filter (fun v => decide (0 < v))).sum

/-- The row-major list of all cell values of a band. -/
def Band.cellValues (b : Band) : List ℚ :=
  (allCells b).map (fun p => b.val p.1 p.2)

/-- `np.sum(band[band > 0.0])`: the total strictly-positive mass of the
band. -/
def Band.positiveSum (b : Band) : ℚ :=
  sumPositives b.cellValues

/-- The effective raw pixel values used by `_reassign_pixel_values`:
`if not raw_pixel_values: raw_pixel_values = [band[tuple(pixel)] for pixel
in pixels]` — an empty list is replaced by the cell values of the selected
pixels read off the band. -/
def effectiveRaw (b : Band) (pixels : List (ℕ × ℕ)) (rawPixelValues : List ℚ) :
    List ℚ :=
  if rawPixelValues.isEmpty then pixels.map (fun p => b.val p.1 p.2)
  else rawPixelValues

/-- `BaseUnrasterizer._reassign_pixel_values`: rescale the (effective) raw
values by `total / total_selected` where `total` is the band's positive mass
and `total_selected` the sum of the raw values.  The Python function is
total: with an empty pixel list the comprehension produces `[]` (no division
is evaluated), and numpy scalar division by zero yields a non-finite value
rather than raising. -/
def reassignPixelValues (b : Band) (pixels : List (ℕ × ℕ))
    (rawPixelValues : List ℚ) : List ℚ :=
  let raw := effectiveRaw b pixels rawPixelValues
  raw.map (fun val => val * b.positiveSum / raw.sum)

/-- `BaseUnrasterizer._get_coordinates`: apply the affine transform (an
external collaborator, modelled as an arbitrary function of the offset
row/column index) to each selected pixel. -/
def getCoordinates (transform : ℕ → ℕ → ℚ × ℚ) (pixels : List (ℕ × ℕ))
    (rowOffset colOffset : ℕ) : List (ℚ × ℚ) :=
  pixels.map (fun p => transform (p.1 + rowOffset) (p.2 + colOffset))

/-- The three parallel output sequences set by a selector run
(`selected_pixels`, `selected_values`, `selected_coords`). -/
structure SelectionResult where
  pixels : List (ℕ × ℕ)
  values : List ℚ
  coords : List (ℚ × ℚ)
deriving DecidableEq

/-- `NaiveUnrasterizer.select_representative_pixels` on a band: take the
first `n_pixels` entries of the descending sort, reassign values (raw values
inferred from the band), and compute coordinates with zero offsets.
(The spec restricts attention to `n_pixels ≤ H*W`; for larger `n_pixels`
the Python fancy-indexing raises `IndexError`, while `List.take`
truncates.) -/
def naiveSelect (nPixels : ℕ) (b : Band) (transform : ℕ → ℕ → ℚ × ℚ) :
    SelectionResult :=
  let pixels := (sortPixels b).take nPixels
  { pixels := pixels
    values := reassignPixelValues b pixels []
    coords := getCoordinates transform pixels 0 0 }

/-- `Unrasterizer._get_pixel_window` together with numpy's slice semantics:
cell `(r, c)` lies in the rectangle returned for `pixel` iff
`max(pixel.1 - width, 0) ≤ r < pixel.1 + width` and
`max(pixel.2 - height, 0) ≤ c < pixel.2 + height` — Python slices exclude
their upper endpoint, and numpy clamps a slice end exceeding the array
extent (the extent bound is applied where the window is used). -/
def inPixelWindow (pixel : ℕ × ℕ) (width height : ℕ) (r c : ℕ) : Bool :=
  decide (pixel.1 - width ≤ r) && decide (r < pixel.1 + width) &&
    decide (pixel.2 - height ≤ c) && decide (c < pixel.2 + height)

/-- The values of the band inside the sub-window of `pixel` (clamped to the
band's extent): `band[row_slice, col_slice]` flattened. -/
def Band.windowValues (b : Band) (pixel : ℕ × ℕ) (width height : ℕ) :
    List ℚ :=
  ((allCells b).filter (fun q => inPixelWindow pixel width height q.1 q.2)).map
    (fun q => b.val q.1 q.2)

/-- `np.sum(window[window > 0.0])` for the sub-window of `pixel`: the raw
aggregated value recorded by `Unrasterizer._select_next_pixel`. -/
def Band.windowPositiveSum (b : Band) (pixel : ℕ × ℕ) (width height : ℕ) :
    ℚ :=
  sumPositives (b.windowValues pixel width height)

/-- The mutable state of an `Unrasterizer` instance: configuration
(`mask_width`, `threshold`) fixed at `__init__`, plus the attributes the
selection pass mutates. -/
structure UnrState where
  maskWidth : ℕ
  threshold : ℚ
  mask : ℕ → ℕ → Bool
  selectedIndexes : List ℕ
  selectedPixels : List (ℕ × ℕ)
  rawPixelValues : List ℚ
  selectedValues : List ℚ
  selectedCoords : List (ℚ × ℚ)

/-- `Unrasterizer.__init__(mask_width, threshold)`: fresh accumulators and
no mask yet (`self.mask = None`; the mask is overwritten before first use,
so its initial value is irrelevant and modelled as all-`false`). -/
def Unrasterizer.init (maskWidth : ℕ) (threshold : ℚ) : UnrState where
  maskWidth := maskWidth
  threshold := threshold
  mask := fun _ _ => false
  selectedIndexes := []
  selectedPixels := []
  rawPixelValues := []
  selectedValues := []
  selectedCoords := []

/-- `Unrasterizer._select_next_pixel`: append the pixel and its index, mark
the pixel's exclusion sub-window ineligible in the mask, and record the raw
aggregated value of the same sub-window. -/
def selectNextPixel (b : Band) (s : UnrState) (pixel : ℕ × ℕ) (idx : ℕ) :
    UnrState :=
  { s with
    selectedIndexes := s.selectedIndexes ++ [idx]
    selectedPixels := s.selectedPixels ++ [pixel]
    mask := fun r c =>
      if inPixelWindow pixel s.maskWidth s.maskWidth r c then false
      else s.mask r c
    rawPixelValues :=
      s.rawPixelValues ++ [b.windowPositiveSum pixel s.maskWidth s.maskWidth] }

/-- The selection pass of `Unrasterizer._select_representative_pixels_from_band`:
`for idx, pixel in enumerate(sorted_pixels): if self.mask[tuple(pixel)]:
self._select_next_pixel(band, pixel, idx)`. -/
def selectLoop (b : Band) : List (ℕ × ℕ) → ℕ → UnrState → UnrState
  | [], _, s => s
  | pixel :: rest, idx, s =>
      selectLoop b rest (idx + 1)
        (if s.mask pixel.1 pixel.2 then selectNextPixel b s pixel idx else s)

/-- The initial eligibility mask `self.mask = band > self.threshold`,
restricted to the band's extent (the numpy mask array has shape
`(H, W)`). -/
def initMask (b : Band) (threshold : ℚ) : ℕ → ℕ → Bool :=
  fun r c =>
    decide (r < b.H) && decide (c < b.W) && decide (threshold < b.val r c)

/-- `Unrasterizer._select_representative_pixels_from_band` on a state:
initialize the mask, run the greedy pass over the descending-sorted cells,
then reassign values and compute offset coordinates. -/
def selectFromBand (s : UnrState) (b : Band) (transform : ℕ → ℕ → ℚ × ℚ)
    (rowOff colOff : ℕ) : UnrState :=
  let s1 := { s with mask := initMask b s.threshold }
  let s2 := selectLoop b (sortPixels b) 0 s1
  { s2 with
    selectedValues := reassignPixelValues b s2.selectedPixels s2.rawPixelValues
    selectedCoords := getCoordinates transform s2.selectedPixels rowOff colOff }

/-- A full exclusion-masked run on a fresh `Unrasterizer` instance,
returning the `(selected_pixels, selected_values, selected_coords)`
triple. -/
def Unrasterizer.run (maskWidth : ℕ) (threshold : ℚ) (b : Band)
    (transform : ℕ → ℕ → ℚ × ℚ) (rowOff colOff : ℕ) : SelectionResult :=
  let s := selectFromBand (Unrasterizer.init maskWidth threshold) b transform
    rowOff colOff
  { pixels := s.selectedPixels
    values := s.selectedValues
    coords := s.selectedCoords }

/-- A `rasterio.windows.Window`: `(col_off, row_off, width, height)`. -/
structure Window where
  colOff : ℕ
  rowOff : ℕ
  width : ℕ
  height : ℕ
deriving DecidableEq

/-- `WindowedUnrasterizer._get_windows`: a grid of windows of uniform shape
`window_shape = (w_x, w_y)`, offsets at multiples of the shape, with
`ceil(width / w_x)` columns of windows and `ceil(height / w_y)` rows,
enumerated by `itertools.product(range(n_windows_x), range(n_windows_y))`
(the x/column index is the outer loop).  Neither width nor height of a
window is clamped to the raster extent. -/
def getWindows (width height : ℕ) (windowShape : ℕ × ℕ) : List Window :=
  let nX := (width + windowShape.1 - 1) / windowShape.1
  let nY := (height + windowShape.2 - 1) / windowShape.2
  (List.range nX).flatMap fun i =>
    (List.range nY).map fun j =>
      { colOff := i * windowShape.1
        rowOff := j * windowShape.2
        width := windowShape.1
        height := windowShape.2 }

/-- `raster_data.read(window=window)[0]`: the sub-band of the full band
visible through a window.  rasterio clips a window that overhangs the
raster extent, so the returned array's shape is the intersection. -/
def readWindow (b : Band) (win : Window) : Band where
  H := min win.height (b.H - win.rowOff)
  W := min win.width (b.W - win.colOff)
  val := fun r c => b.val (win.rowOff + r) (win.colOff + c)

/-- `WindowedUnrasterizer.select_representative_pixels_in_window`: run a
fresh `Unrasterizer` with the coordinator's configuration on the window's
band, with the window's offsets. -/
def selectInWindow (maskWidth : ℕ) (threshold : ℚ) (b : Band)
    (transform : ℕ → ℕ → ℚ × ℚ) (win : Window) : SelectionResult :=
  Unrasterizer.run maskWidth threshold b transform win.rowOff win.colOff

/-- Concatenate per-window results:
`self.selected_pixels = [pixel for pixels in pixel_lists for pixel in pixels]`
and likewise for values and coordinates. -/
def mergeResults (results : List SelectionResult) : SelectionResult where
  pixels := results.flatMap (fun r => r.pixels)
  values := results.flatMap (fun r => r.values)
  coords := results.flatMap (fun r => r.coords)

/-- `pathos.pools.ProcessPool.map` over per-window selection computations
that may raise: an exception raised by any element propagates out of the
`map` call (the pool re-raises it in the caller), so the combined
computation fails as soon as any window's computation fails. -/
def poolMap {α β ε : Type} (f : α → Except ε β) : List α → Except ε (List β)
  | [] => Except.ok []
  | a :: as =>
      match f a with
      | Except.error e => Except.error e
      | Except.ok x =>
          match poolMap f as with
          | Except.error e => Except.error e
          | Except.ok xs => Except.ok (x :: xs)

/-- The tiled coordinator of `WindowedUnrasterizer.select_representative_pixels`,
parametric in the per-window selection computation (the method dispatched to
the pool): map it over the windows through the pool, then merge the
per-window triples.  There is no per-window exception handling in the
source: the `zip`/merge runs only when every window's computation returned
normally. -/
def windowedSelectWith {ε : Type} (f : Window → Except ε SelectionResult)
    (windows : List Window) : Except ε SelectionResult :=
  Except.map mergeResults (poolMap f windows)

/-- `WindowedUnrasterizer.select_representative_pixels` on a full band: tile
the extent, select per window on the window's sub-band, and merge.  The
per-window computation in the source never raises, so it is total here. -/
def windowedSelect (maskWidth : ℕ) (threshold : ℚ) (b : Band)
    (transform : ℕ → ℕ → ℚ × ℚ) (windowShape : ℕ × ℕ) : SelectionResult :=
  let windows := getWindows b.W b.H windowShape
  mergeResults (windows.map (fun win =>
    selectInWindow maskWidth threshold (readWindow b win) transform win))

/-- Chebyshev distance between two cell indexes, over `ℕ` via truncated
subtraction in both directions. -/
def chebyshev (p q : ℕ × ℕ) : ℕ :=
  max (max (p.1 - q.1) (q.1 - p.1)) (max (p.2 - q.2) (q.2 - p.2))

/-- The region the spec claims is set ineligible around a selected cell:
rows `max(r - mask_width, 0)` THROUGH `min(r + mask_width, H - 1)`
(inclusive at the top) and likewise for columns.  Stated from the spec's
words, to be compared with the region the code actually uses. -/
def specClaimedRegion (H W : ℕ) (pixel : ℕ × ℕ) (maskWidth : ℕ)
    (r c : ℕ) : Bool :=
  decide (pixel.1 - maskWidth ≤ r) && decide (r ≤ min (pixel.1 + maskWidth) (H - 1)) &&
    decide (pixel.2 - maskWidth ≤ c) && decide (c ≤ min (pixel.2 + maskWidth) (W - 1))

/-- The region of the mask array actually assigned `False` (and summed for
the raw aggregated value) by `_select_next_pixel`: the pixel window
intersected with the array extent, since numpy clamps slice ends to the
array shape. -/
def maskedRegion (b : Band) (pixel : ℕ × ℕ) (maskWidth : ℕ) (r c : ℕ) :
    Bool :=
  decide (r < b.H) && decide (c < b.W) &&
    inPixelWindow pixel maskWidth maskWidth r c

/-- A transform standing in for the external affine map in concrete runs. -/
def idTransform : ℕ → ℕ → ℚ × ℚ := fun r c => ((r : ℚ), (c : ℚ))

/-- Concrete 2×2 band used as a witness input. -/
def wband : Band := Band.ofList [[1, 2], [0, 3]]

/-- Concrete 4×4 band used as a witness input for the masked policy. -/
def mband : Band := Band.ofList
  [[0, 0, 0, 5], [0, 9, 0, 0], [0, 0, 0, 0], [7, 0, 0, 0]]

/-- The error kind named by the spec for a zero-sum denominator. -/
inductive SelectionError : Type
  | degenerateInput
deriving DecidableEq

/-- A hypothetical per-window selection computation in which the second
window's selection raises: used to exhibit the coordinator's actual failure
semantics. -/
def cexWindowSelector : Window → Except SelectionError SelectionResult :=
  fun win =>
    if win.colOff = 0 then
      Except.ok { pixels := [(0, 0)], values := [1], coords := [(0, 0)] }
    else Except.error SelectionError.degenerateInput

/-- An all-zero band of the given shape. -/
def zeroBand (H W : ℕ) : Band where
  H := H
  W := W
  val := fun _ _ => 0

/-- The invariant carried through the greedy pass for the exclusion
property: pairwise, later selections escape earlier selections' windows,
and every cell of a selected pixel's window is masked off. -/
def ExclusionInv (mw : ℕ) (s : UnrState) : Prop :=
  s.maskWidth = mw ∧
  List.Pairwise (fun p q => inPixelWindow p mw mw q.1 q.2 = false)
    s.selectedPixels ∧
  ∀ p ∈ s.selectedPixels, ∀ r c, inPixelWindow p mw mw r c = true →
    s.mask r c = false

/-- The invariant carried through the greedy pass for the threshold
property: masked-eligible cells exceed the threshold, and so does every
already-selected pixel (which also lies inside the band extent). -/
def ThresholdInv (b : Band) (s : UnrState) : Prop :=
  (∀ r c, s.mask r c = true →
    s.threshold < b.val r c ∧ r < b.H ∧ c < b.W) ∧
  ∀ p ∈ s.selectedPixels,
    s.threshold < b.val p.1 p.2 ∧ p.1 < b.H ∧ p.2 < b.W

/-- The invariant carried through the greedy pass for the parallel-sequence
property: the raw aggregated values accumulate in lockstep with the
selected pixels, one window sum per pixel. -/
def RawValuesInv (b : Band) (mw : ℕ) (s : UnrState) : Prop :=
  s.maskWidth = mw ∧
  s.rawPixelValues =
    s.selectedPixels.map (fun p => b.windowPositiveSum p mw mw)

/-! ## Supporting lemmas -/

theorem mem_allCells {b : Band} {p : ℕ × ℕ} :
    p ∈ allCells b ↔ p.1 < b.H ∧ p.2 < b.W := by
  cases p with
  | mk r c => simp [allCells, List.mem_product]

theorem length_allCells (b : Band) : (allCells b).length = b.H * b.W := by
  have h : allCells b = (List.range b.H) ×ˢ (List.range b.W) := rfl
  rw [h, List.length_product, List.length_range, List.length_range]

theorem nodup_allCells (b : Band) : (allCells b).Nodup :=
  (List.nodup_range b.H).product (List.nodup_range b.W)

theorem sortPixels_perm (b : Band) : (sortPixels b).Perm (allCells b) :=
  List.perm_insertionSort (pixelDescLE b) (allCells b)

theorem length_sortPixels (b : Band) :
    (sortPixels b).length = b.H * b.W := by
  rw [(sortPixels_perm b).length_eq, length_allCells]

theorem nodup_sortPixels (b : Band) : (sortPixels b).Nodup :=
  ((sortPixels_perm b).nodup_iff).mpr (nodup_allCells b)

theorem mem_sortPixels {b : Band} {p : ℕ × ℕ} :
    p ∈ sortPixels b ↔ p.1 < b.H ∧ p.2 < b.W := by
  rw [(sortPixels_perm b).mem_iff, mem_allCells]

theorem sortPixels_pairwise (b : Band) :
    List.Pairwise (fun p q => b.val q.1 q.2 ≤ b.val p.1 p.2) (sortPixels b) :=
  List.sorted_insertionSort (pixelDescLE b) (allCells b)

theorem reassign_sum (b : Band) (pixels : List (ℕ × ℕ)) (raw : List ℚ)
    (hsum : (effectiveRaw b pixels raw).sum ≠ 0) :
    (reassignPixelValues b pixels raw).sum = b.positiveSum := by
  unfold reassignPixelValues
  simp only [mul_div_assoc]
  rw [show (fun v : ℚ => v * (b.positiveSum / (effectiveRaw b pixels raw).sum)) =
      (fun v : ℚ => id v * (b.positiveSum / (effectiveRaw b pixels raw).sum))
    from rfl]
  rw [List.sum_map_mul_right, List.map_id]
  rw [mul_div_assoc']
  rw [mul_comm, mul_div_assoc, div_self hsum, mul_one]

theorem selectLoop_invariant (b : Band) (P : UnrState → Prop)
    (hstep : ∀ s pixel idx, P s → s.mask pixel.1 pixel.2 = true →
      P (selectNextPixel b s pixel idx)) :
    ∀ (l : List (ℕ × ℕ)) (i : ℕ) (s : UnrState), P s →
      P (selectLoop b l i s) := by
  intro l
  induction l with
  | nil => intro i s hs; exact hs
  | cons pixel rest ih =>
      intro i s hs
      simp only [selectLoop]
      by_cases h : s.mask pixel.1 pixel.2 = true
      · rw [if_pos h]
        exact ih _ _ (hstep s pixel i hs h)
      · rw [if_neg h]
        exact ih _ _ hs

theorem run_pixels_eq (mw : ℕ) (t : ℚ) (b : Band) (tr : ℕ → ℕ → ℚ × ℚ)
    (ro co : ℕ) :
    (Unrasterizer.run mw t b tr ro co).pixels =
      (selectLoop b (sortPixels b) 0
        { Unrasterizer.init mw t with mask := initMask b t }).selectedPixels :=
  rfl

theorem chebyshev_comm (p q : ℕ × ℕ) : chebyshev p q = chebyshev q p := by
  simp only [chebyshev]
  omega

theorem chebyshev_of_not_in_window {p q : ℕ × ℕ} {mw : ℕ}
    (h : inPixelWindow p mw mw q.1 q.2 = false) : mw ≤ chebyshev p q := by
  by_contra hg
  have hx : inPixelWindow p mw mw q.1 q.2 = true := by
    simp only [inPixelWindow, Bool.and_eq_true, decide_eq_true_eq]
    simp only [chebyshev, not_le] at hg
    omega
  rw [hx] at h
  simp at h

theorem exclusionInv_step (b : Band) (mw : ℕ) (s : UnrState)
    (pixel : ℕ × ℕ) (idx : ℕ) (hP : ExclusionInv mw s)
    (hm : s.mask pixel.1 pixel.2 = true) :
    ExclusionInv mw (selectNextPixel b s pixel idx) := by
  obtain ⟨hw, hpw, hmask⟩ := hP
  subst hw
  refine ⟨rfl, ?_, ?_⟩
  · rw [selectNextPixel, List.pairwise_append]
    refine ⟨hpw, List.pairwise_singleton _ _, ?_⟩
    intro p hp q hq
    rw [List.mem_singleton] at hq
    rw [hq]
    cases hwin : inPixelWindow p s.maskWidth s.maskWidth pixel.1 pixel.2 with
    | false => rfl
    | true =>
        have hf := hmask p hp pixel.1 pixel.2 hwin
        rw [hf] at hm
        exact absurd hm Bool.false_ne_true
  · intro p hp r c hwin
    rw [selectNextPixel] at hp
    simp only [List.mem_append, List.mem_singleton] at hp
    show (if inPixelWindow pixel s.maskWidth s.maskWidth r c then false
      else s.mask r c) = false
    rcases hp with hp | hp
    · by_cases h : inPixelWindow pixel s.maskWidth s.maskWidth r c = true
      · rw [if_pos h]
      · rw [if_neg h]
        exact hmask p hp r c hwin
    · rw [hp] at hwin
      rw [if_pos hwin]

theorem thresholdInv_step (b : Band) (s : UnrState) (pixel : ℕ × ℕ)
    (idx : ℕ) (hP : ThresholdInv b s) (hm : s.mask pixel.1 pixel.2 = true) :
    ThresholdInv b (selectNextPixel b s pixel idx) := by
  obtain ⟨hmask, hsel⟩ := hP
  constructor
  · intro r c h
    have h' : (if inPixelWindow pixel s.maskWidth s.maskWidth r c then false
        else s.mask r c) = true := h
    by_cases hwin : inPixelWindow pixel s.maskWidth s.maskWidth r c = true
    · rw [if_pos hwin] at h'
      exact absurd h' Bool.false_ne_true
    · rw [if_neg hwin] at h'
      exact hmask r c h'
  · intro p hp
    rw [selectNextPixel] at hp
    simp only [List.mem_append, List.mem_singleton] at hp
    rcases hp with hp | hp
    · exact hsel p hp
    · rw [hp]
      exact hmask pixel.1 pixel.2 hm

/-! ## Claim theorems -/

/-- C1.  Value conservation: for every band containing a strictly positive
cell and every non-empty selection whose (effective) raw values have nonzero
sum, the values returned by `_reassign_pixel_values` sum to the sum of all
strictly positive values of the band.  Both policies call this helper: the
unconstrained policy with `raw = []` (values inferred from the band) and the
exclusion-masked policy with its accumulated raw aggregated values. -/
theorem reassign_value_conservation (b : Band)
    (hpos : ∃ p ∈ allCells b, 0 < b.val p.1 p.2)
    (pixels : List (ℕ × ℕ)) (raw : List ℚ) (hne : pixels ≠ [])
    (hsum : (effectiveRaw b pixels raw).sum ≠ 0) :
    (reassignPixelValues b pixels raw).sum = b.positiveSum :=
  reassign_sum b pixels raw hsum

/-- Witness for C1: on the band `[[1,2],[0,3]]` with selection `[(0,1)]` and
inferred raw values, the reassigned values sum to the positive mass `6`. -/
theorem reassign_value_conservation_witness :
    (reassignPixelValues wband [(0, 1)] []).sum = wband.positiveSum :=
  reassign_value_conservation wband ⟨(0, 0), by decide, by decide⟩
    [(0, 1)] [] (by decide) (by norm_num [effectiveRaw, wband, Band.ofList])

theorem selectLoop_threshold (b : Band) (l : List (ℕ × ℕ)) :
    ∀ (i : ℕ) (s : UnrState), (selectLoop b l i s).threshold = s.threshold := by
  induction l with
  | nil => intro i s; rfl
  | cons pixel rest ih =>
      intro i s
      simp only [selectLoop]
      by_cases h : s.mask pixel.1 pixel.2 = true
      · rw [if_pos h, ih]
        rfl
      · rw [if_neg h]
        exact ih _ _

/-- C2.  Exclusion property: any two distinct pixels selected in one run of
the exclusion-masked policy are at Chebyshev distance at least `mask_width`.
This holds unconditionally — including for pixels on a clamped band
boundary, so in particular with the claim's boundary carve-out. -/
theorem masked_exclusion (mw : ℕ) (t : ℚ) (b : Band) (tr : ℕ → ℕ → ℚ × ℚ)
    (ro co : ℕ) (p q : ℕ × ℕ)
    (hp : p ∈ (Unrasterizer.run mw t b tr ro co).pixels)
    (hq : q ∈ (Unrasterizer.run mw t b tr ro co).pixels)
    (hne : p ≠ q) :
    mw ≤ chebyshev p q := by
  have hinv : ExclusionInv mw (selectLoop b (sortPixels b) 0
      { Unrasterizer.init mw t with mask := initMask b t }) := by
    refine selectLoop_invariant b (ExclusionInv mw)
      (fun s pixel idx hP hm => exclusionInv_step b mw s pixel idx hP hm)
      _ _ _ ⟨rfl, List.Pairwise.nil, ?_⟩
    intro p hp
    exact absurd hp (List.not_mem_nil p)
  rw [run_pixels_eq] at hp hq
  have hpair := (hinv.2.1).imp
    (fun h => chebyshev_of_not_in_window h)
  have hsymm : Symmetric (fun p q : ℕ × ℕ => mw ≤ chebyshev p q) := by
    intro x y hxy
    rw [chebyshev_comm]
    exact hxy
  exact hpair.forall hsymm hp hq hne

/-- Witness for C2: on the 4×4 band `mband` with `mask_width = 2`,
`threshold = 1`, pixels `(1,1)` and `(3,0)` are both selected and lie at
Chebyshev distance `≥ 2`. -/
theorem masked_exclusion_witness :
    2 ≤ chebyshev (1, 1) (3, 0) :=
  masked_exclusion 2 1 mband idTransform 0 0 (1, 1) (3, 0)
    (by decide) (by decide) (by decide)

/-- C10.  Threshold property: every pixel selected by the exclusion-masked
policy has raw band value strictly greater than `threshold` (and lies inside
the band extent): a pixel is selected only while its mask entry is still
`True`, the mask is initialized to `band > threshold`, and entries are only
ever flipped to `False`. -/
theorem masked_threshold (mw : ℕ) (t : ℚ) (b : Band) (tr : ℕ → ℕ → ℚ × ℚ)
    (ro co : ℕ) (p : ℕ × ℕ)
    (hp : p ∈ (Unrasterizer.run mw t b tr ro co).pixels) :
    t < b.val p.1 p.2 := by
  have hinv : ThresholdInv b (selectLoop b (sortPixels b) 0
      { Unrasterizer.init mw t with mask := initMask b t }) := by
    refine selectLoop_invariant b (ThresholdInv b)
      (fun s pixel idx hP hm => thresholdInv_step b s pixel idx hP hm)
      _ _ _ ⟨?_, ?_⟩
    · intro r c h
      simp only [initMask, Bool.and_eq_true, decide_eq_true_eq] at h
      exact ⟨h.2, h.1.1, h.1.2⟩
    · intro p hp
      exact absurd hp (List.not_mem_nil p)
  rw [run_pixels_eq] at hp
  have h := (hinv.2 p hp).1
  rw [selectLoop_threshold b (sortPixels b)] at h
  exact h

/-- Witness for C10: on `mband` with `threshold = 1`, selected pixel `(1,1)`
has value `9 > 1`. -/
theorem masked_threshold_witness :
    (1 : ℚ) < mband.val 1 1 :=
  masked_threshold 2 1 mband idTransform 0 0 (1, 1) (by decide)

/-- C3.  Top-K correctness: for `k ≤ H*W` the unconstrained policy returns
exactly `k` pixels, `k` values and `k` coordinates; the pixels are distinct
cells of the band; and they are exactly the `k` cells with the highest raw
values, in the sense that every unselected cell's value is `≤` every
selected cell's value (the tie-break among equal values is the fixed,
reproducible order of the deterministic sort). -/
theorem naive_topk (b : Band) (k : ℕ) (transform : ℕ → ℕ → ℚ × ℚ)
    (hk : k ≤ b.H * b.W) :
    (naiveSelect k b transform).pixels.length = k ∧
    (naiveSelect k b transform).values.length = k ∧
    (naiveSelect k b transform).coords.length = k ∧
    (naiveSelect k b transform).pixels.Nodup ∧
    (∀ p ∈ (naiveSelect k b transform).pixels, p ∈ allCells b) ∧
    (∀ p ∈ (naiveSelect k b transform).pixels, ∀ q ∈ allCells b,
      q ∉ (naiveSelect k b transform).pixels →
        b.val q.1 q.2 ≤ b.val p.1 p.2) := by
  have hpix : (naiveSelect k b transform).pixels = (sortPixels b).take k := rfl
  have hlen : ((sortPixels b).take k).length = k := by
    rw [List.length_take, length_sortPixels]
    omega
  refine ⟨by rw [hpix, hlen], ?_, ?_, ?_, ?_, ?_⟩
  · show (reassignPixelValues b ((sortPixels b).take k) []).length = k
    simp only [reassignPixelValues, effectiveRaw, List.isEmpty_nil, if_pos,
      List.length_map]
    exact hlen
  · show (getCoordinates transform ((sortPixels b).take k) 0 0).length = k
    rw [getCoordinates, List.length_map, hlen]
  · rw [hpix]
    exact List.Nodup.sublist (List.take_sublist k _) (nodup_sortPixels b)
  · intro p hp
    rw [hpix] at hp
    exact ((sortPixels_perm b).mem_iff).mp (List.mem_of_mem_take hp)
  · intro p hp q hq hqn
    rw [hpix] at hp hqn
    have hpair := sortPixels_pairwise b
    rw [← List.take_append_drop k (sortPixels b), List.pairwise_append]
      at hpair
    obtain ⟨-, -, hcross⟩ := hpair
    have hq' : q ∈ (sortPixels b).take k ++ (sortPixels b).drop k := by
      rw [List.take_append_drop]
      exact ((sortPixels_perm b).mem_iff).mpr hq
    rw [List.mem_append] at hq'
    rcases hq' with hq' | hq'
    · exact absurd hq' hqn
    · exact hcross p hp q hq'

/-- Witness for C3: the top-2 selection on the band `[[1,2],[0,3]]`. -/
theorem naive_topk_witness :
    (naiveSelect 2 wband idTransform).pixels.length = 2 ∧
    (naiveSelect 2 wband idTransform).values.length = 2 ∧
    (naiveSelect 2 wband idTransform).coords.length = 2 ∧
    (naiveSelect 2 wband idTransform).pixels.Nodup ∧
    (∀ p ∈ (naiveSelect 2 wband idTransform).pixels, p ∈ allCells wband) ∧
    (∀ p ∈ (naiveSelect 2 wband idTransform).pixels,
      ∀ q ∈ allCells wband, q ∉ (naiveSelect 2 wband idTransform).pixels →
        wband.val q.1 q.2 ≤ wband.val p.1 p.2) :=
  naive_topk wband 2 idTransform (by decide)

/-- C6 counterexample: on the band `[[1,2],[0,3]]` with an empty selected
pixel list (so the sum of the raw selected values is zero), the reweighting
step returns the empty list — a result, not a `DegenerateInput` failure: the
Python list comprehension over an empty list never evaluates the division,
and the code defines no such exception. -/
theorem reassign_empty_returns_result :
    reassignPixelValues wband [] [] = [] := by decide

/-- C6 amended: the reweighting step does not fail on an empty selection
(the zero-denominator case reachable with an empty pixel list): it returns
the empty list, for every band. -/
theorem reassign_empty_no_failure (b : Band) :
    reassignPixelValues b [] [] = [] := rfl

/-- C7 counterexample: for a raster extent of width 5, height 3 and
`window_shape = (3, 3)`, `_get_windows` produces two windows of full width
3; the second starts at column offset 3 and extends through column 5,
past the extent's last column 4 — its width is not clamped to 2. -/
theorem get_windows_not_clamped :
    getWindows 5 3 (3, 3) =
      [{ colOff := 0, rowOff := 0, width := 3, height := 3 },
       { colOff := 3, rowOff := 0, width := 3, height := 3 }] ∧
    ¬ (3 + 3 ≤ 5) := by decide

/-- C4 counterexample: in a 5×5 band, for selected cell `(2,2)` and
`mask_width = 1`, the spec's claimed region includes cell `(3,2)`
(row `2 + 1 = 3 ≤ min(3, 4)`), but the region the code masks and sums is
`band[1:3, 1:3]`, whose last row is 2: cell `(3,2)` is not touched, because
the Python slice excludes its upper endpoint `r + mask_width`. -/
theorem pixel_window_not_inclusive :
    specClaimedRegion 5 5 (2, 2) 1 3 2 = true ∧
    maskedRegion (zeroBand 5 5) (2, 2) 1 3 2 = false := by decide

/-- C4 amended: the region set ineligible in the mask (equally the region
summed for the raw aggregated value) is exactly rows
`max(r - mask_width, 0) ≤ r' < min(r + mask_width, H)` and columns
`max(c - mask_width, 0) ≤ c' < min(c + mask_width, W)` — i.e. inclusive
bounds `max(r - mask_width, 0)` through `min(r + mask_width, H) - 1` —
and the region never contains an index outside `[0, H) × [0, W)`. -/
theorem pixel_window_geometry (b : Band) (pixel : ℕ × ℕ) (mw r c : ℕ) :
    (maskedRegion b pixel mw r c = true ↔
      (pixel.1 - mw ≤ r ∧ r < min (pixel.1 + mw) b.H ∧
       pixel.2 - mw ≤ c ∧ c < min (pixel.2 + mw) b.W)) ∧
    (maskedRegion b pixel mw r c = true → r < b.H ∧ c < b.W) := by
  constructor
  · simp only [maskedRegion, inPixelWindow, Bool.and_eq_true, decide_eq_true_eq,
      lt_min_iff]
    tauto
  · simp only [maskedRegion, Bool.and_eq_true, decide_eq_true_eq]
    tauto

theorem run_values_eq (mw : ℕ) (t : ℚ) (b : Band) (tr : ℕ → ℕ → ℚ × ℚ)
    (ro co : ℕ) :
    (Unrasterizer.run mw t b tr ro co).values =
      reassignPixelValues b
        (selectLoop b (sortPixels b) 0
          { Unrasterizer.init mw t with mask := initMask b t }).selectedPixels
        (selectLoop b (sortPixels b) 0
          { Unrasterizer.init mw t with mask := initMask b t }).rawPixelValues :=
  rfl

theorem run_coords_eq (mw : ℕ) (t : ℚ) (b : Band) (tr : ℕ → ℕ → ℚ × ℚ)
    (ro co : ℕ) :
    (Unrasterizer.run mw t b tr ro co).coords =
      getCoordinates tr
        (selectLoop b (sortPixels b) 0
          { Unrasterizer.init mw t with mask := initMask b t }).selectedPixels
        ro co :=
  rfl

theorem reassign_of_raw_map (b : Band) (P : List (ℕ × ℕ))
    (f : ℕ × ℕ → ℚ) :
    reassignPixelValues b P (P.map f) =
      P.map (fun p => f p * b.positiveSum / (P.map f).sum) := by
  cases P with
  | nil => rfl
  | cons p rest =>
      show ((p :: rest).map f).map
        (fun v => v * b.positiveSum / ((p :: rest).map f).sum) = _
      rw [List.map_map]
      rfl

theorem reassign_inferred (b : Band) (P : List (ℕ × ℕ)) :
    reassignPixelValues b P [] =
      P.map (fun p => b.val p.1 p.2 * b.positiveSum /
        (P.map (fun q => b.val q.1 q.2)).sum) := by
  show (P.map fun p => b.val p.1 p.2).map
    (fun v => v * b.positiveSum / (P.map fun p => b.val p.1 p.2).sum) = _
  rw [List.map_map]
  rfl

theorem rawValuesInv_step (b : Band) (mw : ℕ) (s : UnrState)
    (pixel : ℕ × ℕ) (idx : ℕ) (hP : RawValuesInv b mw s)
    (hm : s.mask pixel.1 pixel.2 = true) :
    RawValuesInv b mw (selectNextPixel b s pixel idx) := by
  obtain ⟨hw, hraw⟩ := hP
  subst hw
  refine ⟨rfl, ?_⟩
  show s.rawPixelValues ++ [b.windowPositiveSum pixel s.maskWidth s.maskWidth] =
    (s.selectedPixels ++ [pixel]).map
      (fun p => b.windowPositiveSum p s.maskWidth s.maskWidth)
  rw [List.map_append, hraw]
  rfl

theorem run_raw_values (mw : ℕ) (t : ℚ) (b : Band) :
    (selectLoop b (sortPixels b) 0
      { Unrasterizer.init mw t with mask := initMask b t }).rawPixelValues =
    (selectLoop b (sortPixels b) 0
      { Unrasterizer.init mw t with mask := initMask b t }).selectedPixels.map
        (fun p => b.windowPositiveSum p mw mw) := by
  have hinv : RawValuesInv b mw (selectLoop b (sortPixels b) 0
      { Unrasterizer.init mw t with mask := initMask b t }) :=
    selectLoop_invariant b (RawValuesInv b mw)
      (fun s pixel idx hP hm => rawValuesInv_step b mw s pixel idx hP hm)
      _ _ _ ⟨rfl, rfl⟩
  exact hinv.2

theorem run_values_map (mw : ℕ) (t : ℚ) (b : Band) (tr : ℕ → ℕ → ℚ × ℚ)
    (ro co : ℕ) :
    (Unrasterizer.run mw t b tr ro co).values =
      (Unrasterizer.run mw t b tr ro co).pixels.map
        (fun p => b.windowPositiveSum p mw mw * b.positiveSum /
          ((Unrasterizer.run mw t b tr ro co).pixels.map
            (fun q => b.windowPositiveSum q mw mw)).sum) := by
  rw [run_values_eq, run_raw_values, run_pixels_eq, reassign_of_raw_map]

theorem run_coords_map (mw : ℕ) (t : ℚ) (b : Band) (tr : ℕ → ℕ → ℚ × ℚ)
    (ro co : ℕ) :
    (Unrasterizer.run mw t b tr ro co).coords =
      (Unrasterizer.run mw t b tr ro co).pixels.map
        (fun p => tr (p.1 + ro) (p.2 + co)) :=
  rfl

theorem selectLoop_of_mask_false (b : Band) :
    ∀ (l : List (ℕ × ℕ)) (i : ℕ) (s : UnrState),
      (∀ p ∈ l, s.mask p.1 p.2 = false) → selectLoop b l i s = s := by
  intro l
  induction l with
  | nil => intro i s _; rfl
  | cons pixel rest ih =>
      intro i s h
      simp only [selectLoop]
      rw [if_neg (fun hc => by
        rw [h pixel (List.mem_cons_self pixel rest)] at hc
        exact Bool.false_ne_true hc)]
      exact ih _ _ (fun p hp => h p (List.mem_cons_of_mem _ hp))

theorem poolMap_error {α β ε : Type} (f : α → Except ε β) :
    ∀ (l : List α) (a : α) (e : ε), a ∈ l → f a = Except.error e →
      ∃ e', poolMap f l = Except.error e' := by
  intro l
  induction l with
  | nil => intro a e ha; exact absurd ha (List.not_mem_nil a)
  | cons x xs ih =>
      intro a e ha hf
      rw [List.mem_cons] at ha
      show (∃ e', (match f x with
        | Except.error e => Except.error e
        | Except.ok y =>
            match poolMap f xs with
            | Except.error e => Except.error e
            | Except.ok ys => Except.ok (y :: ys)) = Except.error e')
      cases hfx : f x with
      | error e₁ => exact ⟨e₁, rfl⟩
      | ok y =>
          rcases ha with ha | ha
          · rw [ha, hfx] at hf
            exact absurd hf (fun h => Except.noConfusion h)
          · obtain ⟨e', he'⟩ := ih a e ha hf
            rw [he']
            exact ⟨e', rfl⟩

theorem mergeResults_length (results : List SelectionResult)
    (hv : ∀ r ∈ results, r.values.length = r.pixels.length)
    (hc : ∀ r ∈ results, r.coords.length = r.pixels.length) :
    (mergeResults results).values.length =
      (mergeResults results).pixels.length ∧
    (mergeResults results).coords.length =
      (mergeResults results).pixels.length := by
  constructor
  · simp only [mergeResults, List.length_flatMap]
    exact congrArg List.sum (List.map_congr_left
      (fun r hr => by simp [Function.comp, hv r hr]))
  · simp only [mergeResults, List.length_flatMap]
    exact congrArg List.sum (List.map_congr_left
      (fun r hr => by simp [Function.comp, hc r hr]))

theorem ceil_div_mul_ge (a b : ℕ) (hb : 0 < b) :
    a ≤ ((a + b - 1) / b) * b := by
  rcases Nat.eq_zero_or_pos a with rfl | ha
  · simp
  · have h1 : a + b - 1 = (a - 1) + b := by omega
    rw [h1, Nat.add_div_right _ hb, Nat.succ_mul, mul_comm]
    have h2 := Nat.div_add_mod (a - 1) b
    have h3 := Nat.mod_lt (a - 1) hb
    omega

theorem mem_getWindows {width height : ℕ} {ws : ℕ × ℕ} {win : Window} :
    win ∈ getWindows width height ws ↔
      ∃ i < (width + ws.1 - 1) / ws.1, ∃ j < (height + ws.2 - 1) / ws.2,
        win = { colOff := i * ws.1, rowOff := j * ws.2,
                width := ws.1, height := ws.2 } := by
  simp only [getWindows, List.mem_flatMap, List.mem_map, List.mem_range]
  constructor
  · rintro ⟨i, hi, j, hj, rfl⟩
    exact ⟨i, hi, j, hj, rfl⟩
  · rintro ⟨i, hi, j, hj, rfl⟩
    exact ⟨i, hi, j, hj, rfl⟩

/-- C5 counterexample: a two-window tiled run in which the first window's
selection returns normally and the second raises: the merged run fails with
the propagated error instead of succeeding with the first window's partial
result — `pathos`' `map` re-raises a worker's exception and
`WindowedUnrasterizer.select_representative_pixels` contains no per-window
exception handling. -/
theorem windowed_partial_failure_counterexample :
    cexWindowSelector { colOff := 0, rowOff := 0, width := 3, height := 3 } =
      Except.ok { pixels := [(0, 0)], values := [1], coords := [(0, 0)] } ∧
    windowedSelectWith cexWindowSelector
      [{ colOff := 0, rowOff := 0, width := 3, height := 3 },
       { colOff := 3, rowOff := 0, width := 3, height := 3 }] =
      Except.error SelectionError.degenerateInput :=
  ⟨rfl, rfl⟩

/-- C5 amended: (1) if any window's selection raises, the error propagates
and the entire tiled run fails — there is no per-window tolerance; (2) a
window with no positive mass does not raise at all: for a nonnegative
threshold the selection on an all-zero band returns empty pixel, value and
coordinate sequences, which is how an empty per-window contribution actually
arises. -/
theorem windowed_failure_propagates :
    (∀ (f : Window → Except SelectionError SelectionResult)
      (l : List Window) (w : Window) (e : SelectionError),
      w ∈ l → f w = Except.error e →
      ∃ e', windowedSelectWith f l = Except.error e') ∧
    (∀ (H W mw : ℕ) (t : ℚ) (tr : ℕ → ℕ → ℚ × ℚ) (ro co : ℕ), 0 ≤ t →
      (Unrasterizer.run mw t (zeroBand H W) tr ro co).pixels = [] ∧
      (Unrasterizer.run mw t (zeroBand H W) tr ro co).values = [] ∧
      (Unrasterizer.run mw t (zeroBand H W) tr ro co).coords = []) := by
  constructor
  · intro f l w e hw hf
    obtain ⟨e', he'⟩ := poolMap_error f l w e hw hf
    exact ⟨e', by rw [windowedSelectWith, he']; rfl⟩
  · intro H W mw t tr ro co ht
    have hmask : ∀ r c : ℕ, initMask (zeroBand H W) t r c = false := by
      intro r c
      have hnt : ¬ (t < (0 : ℚ)) := not_lt.mpr ht
      simp [initMask, zeroBand, decide_eq_false hnt]
    have h2 : selectLoop (zeroBand H W) (sortPixels (zeroBand H W)) 0
        { Unrasterizer.init mw t with mask := initMask (zeroBand H W) t } =
        { Unrasterizer.init mw t with mask := initMask (zeroBand H W) t } :=
      selectLoop_of_mask_false _ _ _ _ (fun p _ => hmask p.1 p.2)
    refine ⟨?_, ?_, ?_⟩
    · rw [run_pixels_eq, h2]
      rfl
    · rw [run_values_eq, h2]
      rfl
    · rw [run_coords_eq, h2]
      rfl

/-- Witness for the amended C5: the concrete two-window failing run fails,
and a 2×2 all-zero band with threshold 1 yields an empty selection. -/
theorem windowed_failure_propagates_witness :
    (∃ e', windowedSelectWith cexWindowSelector
      [{ colOff := 0, rowOff := 0, width := 3, height := 3 },
       { colOff := 3, rowOff := 0, width := 3, height := 3 }] =
        Except.error e') ∧
    (Unrasterizer.run 1 1 (zeroBand 2 2) idTransform 0 0).pixels = [] :=
  ⟨windowed_failure_propagates.1 cexWindowSelector
      [{ colOff := 0, rowOff := 0, width := 3, height := 3 },
       { colOff := 3, rowOff := 0, width := 3, height := 3 }]
      { colOff := 3, rowOff := 0, width := 3, height := 3 }
      SelectionError.degenerateInput (by decide) rfl,
    (windowed_failure_propagates.2 2 2 1 1 idTransform 0 0 (by norm_num)).1⟩

/-- C7 amended: `_get_windows` produces a grid of windows all of uniform
shape `window_shape`, and every cell of the raster extent is covered by
exactly one window (the grid is non-overlapping and covers the extent);
but windows in the last row/column are NOT clamped: they keep full shape
and may extend past the extent. -/
theorem get_windows_partition (width height : ℕ) (ws : ℕ × ℕ)
    (h1 : 0 < ws.1) (h2 : 0 < ws.2) (x y : ℕ)
    (hx : x < width) (hy : y < height) :
    (∀ win ∈ getWindows width height ws,
      win.width = ws.1 ∧ win.height = ws.2) ∧
    (∃! win : Window, win ∈ getWindows width height ws ∧
      win.colOff ≤ x ∧ x < win.colOff + win.width ∧
      win.rowOff ≤ y ∧ y < win.rowOff + win.height) := by
  constructor
  · intro win hwin
    obtain ⟨i, hi, j, hj, rfl⟩ := mem_getWindows.mp hwin
    exact ⟨rfl, rfl⟩
  · refine ⟨Window.mk ((x / ws.1) * ws.1) ((y / ws.2) * ws.2) ws.1 ws.2,
      ⟨?_, ?_, ?_, ?_, ?_⟩, ?_⟩
    · refine mem_getWindows.mpr ⟨x / ws.1, ?_, y / ws.2, ?_, rfl⟩
      · rw [Nat.div_lt_iff_lt_mul h1]
        exact lt_of_lt_of_le hx (ceil_div_mul_ge width ws.1 h1)
      · rw [Nat.div_lt_iff_lt_mul h2]
        exact lt_of_lt_of_le hy (ceil_div_mul_ge height ws.2 h2)
    · exact Nat.div_mul_le_self x ws.1
    · show x < (x / ws.1) * ws.1 + ws.1
      have hdm := Nat.div_add_mod x ws.1
      have hlt := Nat.mod_lt x h1
      rw [mul_comm]
      omega
    · exact Nat.div_mul_le_self y ws.2
    · show y < (y / ws.2) * ws.2 + ws.2
      have hdm := Nat.div_add_mod y ws.2
      have hlt := Nat.mod_lt y h2
      rw [mul_comm]
      omega
    · rintro win ⟨hwin, hcx, hcx', hcy, hcy'⟩
      obtain ⟨i, hi, j, hj, rfl⟩ := mem_getWindows.mp hwin
      dsimp only at hcx hcx' hcy hcy' ⊢
      have hix : x / ws.1 = i :=
        Nat.div_eq_of_lt_le hcx (by rw [Nat.succ_mul]; exact hcx')
      have hjy : y / ws.2 = j :=
        Nat.div_eq_of_lt_le hcy (by rw [Nat.succ_mul]; exact hcy')
      rw [hix, hjy]

/-- Witness for the amended C7: extent 5×3 with `window_shape = (3,3)`,
cell `(4, 2)`. -/
theorem get_windows_partition_witness :
    (∀ win ∈ getWindows 5 3 (3, 3), win.width = 3 ∧ win.height = 3) ∧
    (∃! win : Window, win ∈ getWindows 5 3 (3, 3) ∧
      win.colOff ≤ 4 ∧ 4 < win.colOff + win.width ∧
      win.rowOff ≤ 2 ∧ 2 < win.rowOff + win.height) :=
  get_windows_partition 5 3 (3, 3) (by decide) (by decide) 4 2
    (by decide) (by decide)

/-- C8.  Determinism/idempotence: the exclusion-masked selection is a pure
function of the band, the configuration `(mask_width, threshold)` and the
transform/offsets.  Two runs from freshly initialized instances — whatever
boolean array the `mask` attribute holds beforehand (`None` at `__init__`,
or anything else) — produce identical states, hence identical `pixels`,
`values` and `coords`; and any two invocations of the run pipeline on equal
inputs are equal.  The Python implementation has no randomness, time or I/O
dependence in this path, which the embedding reflects by being a total
deterministic function. -/
theorem masked_select_deterministic (mw : ℕ) (t : ℚ) (b : Band)
    (tr : ℕ → ℕ → ℚ × ℚ) (ro co : ℕ) (m₁ m₂ : ℕ → ℕ → Bool) :
    selectFromBand { Unrasterizer.init mw t with mask := m₁ } b tr ro co =
      selectFromBand { Unrasterizer.init mw t with mask := m₂ } b tr ro co ∧
    Unrasterizer.run mw t b tr ro co = Unrasterizer.run mw t b tr ro co :=
  ⟨rfl, rfl⟩

/-- C9.  Parallel-sequence invariant: for every run of the exclusion-masked
policy, every run of the unconstrained policy, and every merged windowed
run, the three sequences `pixels`, `values`, `coords` have identical length;
moreover for the two single-band policies index `i` of `values`/`coords` is
derived from `pixels[i]` (the coordinate is the transform of `pixels[i]`
offset by the window, and the value is the rescaled raw value of
`pixels[i]`). -/
theorem selection_result_parallel (mw : ℕ) (t : ℚ) (b : Band)
    (tr : ℕ → ℕ → ℚ × ℚ) (ro co k : ℕ) (ws : ℕ × ℕ) :
    ((Unrasterizer.run mw t b tr ro co).values.length =
        (Unrasterizer.run mw t b tr ro co).pixels.length ∧
      (Unrasterizer.run mw t b tr ro co).coords =
        (Unrasterizer.run mw t b tr ro co).pixels.map
          (fun p => tr (p.1 + ro) (p.2 + co)) ∧
      (Unrasterizer.run mw t b tr ro co).values =
        (Unrasterizer.run mw t b tr ro co).pixels.map
          (fun p => b.windowPositiveSum p mw mw * b.positiveSum /
            ((Unrasterizer.run mw t b tr ro co).pixels.map
              (fun q => b.windowPositiveSum q mw mw)).sum)) ∧
    ((naiveSelect k b tr).values.length =
        (naiveSelect k b tr).pixels.length ∧
      (naiveSelect k b tr).coords = (naiveSelect k b tr).pixels.map
        (fun p => tr (p.1 + 0) (p.2 + 0)) ∧
      (naiveSelect k b tr).values = (naiveSelect k b tr).pixels.map
        (fun p => b.val p.1 p.2 * b.positiveSum /
          ((naiveSelect k b tr).pixels.map
            (fun q => b.val q.1 q.2)).sum)) ∧
    ((windowedSelect mw t b tr ws).values.length =
        (windowedSelect mw t b tr ws).pixels.length ∧
      (windowedSelect mw t b tr ws).coords.length =
        (windowedSelect mw t b tr ws).pixels.length) := by
  refine ⟨⟨?_, ?_, ?_⟩, ⟨?_, ?_, ?_⟩, ?_⟩
  · rw [run_values_map, List.length_map]
  · exact run_coords_map mw t b tr ro co
  · exact run_values_map mw t b tr ro co
  · show (reassignPixelValues b ((sortPixels b).take k) []).length = _
    rw [reassign_inferred, List.length_map]
    rfl
  · rfl
  · exact reassign_inferred b ((sortPixels b).take k)
  · refine mergeResults_length _ ?_ ?_
    · intro r hr
      rw [List.mem_map] at hr
      obtain ⟨win, hwin, rfl⟩ := hr
      rw [selectInWindow, run_values_map, List.length_map]
    · intro r hr
      rw [List.mem_map] at hr
      obtain ⟨win, hwin, rfl⟩ := hr
      rw [selectInWindow, run_coords_map, List.length_map]

end Unrasterize
